import Mathlib

/-!
Verification of the URL-glob compiler of FirefoxRouter (`src/glob.rs`),
the URL filtering of `src/main.rs`, and the configuration handling of
`src/config.rs`, against the natural-language specification.

Modelling notes.

Strings are modelled as `List Char` (Rust `str` is a sequence of `char`s,
accessed in the source through `str::chars()`).  Rust byte indices
(`str::find`, `str::len`, byte slicing) are modelled by explicit UTF-8
byte arithmetic (`Char.utf8Size`), because `glob_to_regex` mixes byte
indices and character indices — that mix is reproduced faithfully here.

The compiler emits a `regex_lite` pattern of the restricted shape
`(?i)^ body $` where the body is a concatenation of four kinds of atoms:
a (possibly `\`-escaped) literal character, the optional slash `/?`, the
segment wildcard `[^\.:/]*?` and the unbounded wildcard `.*?`.  The body
is modelled both as the emitted pattern text (`CompiledRegex.pattern`,
the exact string handed to `Regex::new`) and as the list of emitted
atoms (`CompiledRegex.toks`); the pattern text is by construction the
rendering `(?i)^ ++ render toks ++ $` of the atom list.

`rmatch` gives the matching semantics of such an anchored pattern under
`regex_lite` rules: `is_match` with a pattern anchored by `^`/`$` (and
no `m` flag) holds iff the whole haystack is in the pattern's language;
`(?i)` is ASCII-only case folding in `regex_lite`; `.` matches every
character except `'\n'`; a negated class `[^\.:/]` matches every
character (including `'\n'`) other than the listed ones; laziness of
`*?` affects capture boundaries only, never whether a match exists, so
the language semantics below ignores it.

Rust panics (here: `Option::unwrap` on `None`) are modelled as `none`
in an `Option`-valued result.
-/

/-- ASCII lower-casing on code points: `regex_lite`'s `(?i)` flag performs
ASCII-only case folding. -/
def lowerNat (c : Char) : Nat :=
  if 65 ≤ c.toNat ∧ c.toNat ≤ 90 then c.toNat + 32 else c.toNat

/-- Case-insensitive character equality, as used by the pattern engine for
literal atoms under `(?i)`. -/
def charEqCI (a b : Char) : Bool := lowerNat a == lowerNat b

/-- Characters matched by the negated class `[^\.:/]` (the segment
wildcard `MATCH_ONE_SEGMENT`): everything but `.`, `:` and `/`. -/
def isSegChar (c : Char) : Bool := !(c == '.' || c == ':' || c == '/')

/-- Characters matched by `.` (the unbounded wildcard `MATCH_ANYTHING`):
every character except the newline. -/
def isAnyChar (c : Char) : Bool := !(c == '\n')

/-- The four kinds of atoms the glob compiler emits into the regex body. -/
inductive RTok : Type
  | lit (c : Char)
  | optSlash
  | seg
  | any
deriving DecidableEq, Repr

/-- Suffixes of `s` reachable by removing from the front a run of
characters all satisfying `p`: the ways a `p`-star can split `s`. -/
def predSuffixes (p : Char → Bool) : List Char → List (List Char)
  | [] => [[]]
  | c :: cs => (c :: cs) :: (if p c then predSuffixes p cs else [])

/-- Language semantics of an emitted atom list, anchored at both ends
(the emitted pattern is `(?i)^ … $`): `rmatch toks s` holds iff the whole
candidate `s` is generated by the atoms. -/
def rmatch : List RTok → List Char → Bool
  | [], s => s.isEmpty
  | RTok.lit c :: ts, s =>
    match s with
    | [] => false
    | x :: xs => charEqCI x c && rmatch ts xs
  | RTok.optSlash :: ts, s =>
    rmatch ts s ||
      (match s with
       | [] => false
       | x :: xs => if x = '/' then rmatch ts xs else false)
  | RTok.seg :: ts, s => (predSuffixes isSegChar s).any (fun r => rmatch ts r)
  | RTok.any :: ts, s => (predSuffixes isAnyChar s).any (fun r => rmatch ts r)

/-- `const MATCH_ONE_SEGMENT: &str = r"[^\.:/]*?"` -/
def MATCH_ONE_SEGMENT : List Char := String.toList "[^\\.:/]*?"

/-- `const MATCH_ANYTHING: &str = ".*?"` -/
def MATCH_ANYTHING : List Char := String.toList ".*?"

/-- `const PROTOCOL_SEPARATOR: &str = "://"` -/
def PROTOCOL_SEPARATOR : List Char := String.toList "://"

/-- `fn is_regex_meta_character(c: char) -> bool` of `src/glob.rs`. -/
def is_regex_meta_character (c : Char) : Bool :=
  c == '\\' || c == '.' || c == '+' || c == '*' || c == '?' || c == '(' ||
  c == ')' || c == '|' || c == '[' || c == ']' || c == '{' || c == '}' ||
  c == '^' || c == '$' || c == '#' || c == '&' || c == '-' || c == '~'

/-- Text pushed onto `regex_pattern` for one emitted atom. -/
def renderTok : RTok → List Char
  | RTok.lit c => if is_regex_meta_character c then ['\\', c] else [c]
  | RTok.optSlash => String.toList "/?"
  | RTok.seg => MATCH_ONE_SEGMENT
  | RTok.any => MATCH_ANYTHING

/-- UTF-8 byte length of a string, Rust's `str::len()`. -/
def utf8Len (s : List Char) : Nat := (s.map (fun c => c.utf8Size)).sum

/-- Byte-indexed substring search, Rust's `str::find(pat)`: returns the
byte offset of the first occurrence of `pat`. -/
def findSubAux (pat : List Char) : List Char → Nat → Option Nat
  | [], off => if pat.isPrefixOf [] then some off else none
  | c :: rest, off =>
    if pat.isPrefixOf (c :: rest) then some off
    else findSubAux pat rest (off + c.utf8Size)

/-- Rust's `str::find` for a literal pattern (byte offset result). -/
def findSub (s pat : List Char) : Option Nat := findSubAux pat s 0

/-- Whether `pat` occurs as a substring of `s`. -/
def hasSubstring (s pat : List Char) : Bool := (findSub s pat).isSome

/-- Byte-based slicing from a byte offset, Rust `&s[n..]` (the offsets
used by `build_glob` always fall on character boundaries). -/
def dropBytes : List Char → Nat → List Char
  | s, 0 => s
  | [], _ + 1 => []
  | c :: rest, n + 1 => dropBytes rest (n + 1 - c.utf8Size)

/-- `Iterator::position` on a character list. -/
def position (p : Char → Bool) : List Char → Option Nat
  | [] => none
  | c :: rest => if p c then some 0 else (position p rest).map (fun i => i + 1)

/-- Query-parameter index of one compilation pass:
`glob.chars().skip(protocol_index + 1).position(|c| c == '?').map(|it| it + protocol_index + 1)`. -/
def queryIdx (glob : List Char) (protocolIndex : Nat) : Option Nat :=
  (position (fun c => c == '?') (glob.drop (protocolIndex + 1))).map
    (fun it => it + (protocolIndex + 1))

/-- `url_query_params_index.filter(|&it| index > it).is_some()`. -/
def afterQueryB (qIdx : Option Nat) (index : Nat) : Bool :=
  match qIdx with
  | some it => decide (it < index)
  | none => false

/-- The scan loop of `glob_to_regex` (`while index < glob.len()` over
`glob.chars().nth(index)` with one character of lookahead), returning the
emitted atoms.  The list argument is the not-yet-consumed characters
(`glob.chars().nth(index)` onwards); `index` counts characters consumed,
while the loop bound `glob.len()` is the byte length, exactly as in the
source.  `none` models the panic of `.unwrap()` when the character
iterator is exhausted but `index` is still below the byte length. -/
def globLoop (glob : List Char) (protocolIndex : Nat) (qIdx : Option Nat) :
    List Char → Nat → Option (List RTok)
  | [], index =>
    if index < utf8Len glob then none else some []
  | [current], index =>
    if index < utf8Len glob then
      if current = '/' ∧
          ((qIdx = none ∧ protocolIndex + 2 < index) ∨ qIdx = some (index + 1)) then
        (globLoop glob protocolIndex qIdx [] (index + 1)).map
          (fun ts => RTok.optSlash :: ts)
      else if current = '*' then
        (globLoop glob protocolIndex qIdx [] (index + 1)).map
          (fun ts => (if afterQueryB qIdx index then RTok.any else RTok.seg) :: ts)
      else
        (globLoop glob protocolIndex qIdx [] (index + 1)).map
          (fun ts => RTok.lit current :: ts)
    else some []
  | current :: next :: rest, index =>
    if index < utf8Len glob then
      if current = '/' ∧
          ((qIdx = none ∧ protocolIndex + 2 < index) ∨ qIdx = some (index + 1)) then
        (globLoop glob protocolIndex qIdx (next :: rest) (index + 1)).map
          (fun ts => RTok.optSlash :: ts)
      else if current = '*' ∧ next = '*' then
        (globLoop glob protocolIndex qIdx rest (index + 2)).map
          (fun ts => (if index < protocolIndex then RTok.seg else RTok.any) :: ts)
      else if current = '*' then
        (globLoop glob protocolIndex qIdx (next :: rest) (index + 1)).map
          (fun ts => (if afterQueryB qIdx index then RTok.any else RTok.seg) :: ts)
      else
        (globLoop glob protocolIndex qIdx (next :: rest) (index + 1)).map
          (fun ts => RTok.lit current :: ts)
    else some []

/-- One compiled pattern: the emitted atoms together with the exact
pattern text handed to `Regex::new` (always `(?i)^ ++ render toks ++ $`). -/
structure CompiledRegex : Type where
  toks : List RTok
  pattern : List Char
deriving DecidableEq, Repr

/-- `fn glob_to_regex(glob: &str, protocol_index: usize)` of `src/glob.rs`.
After the scan, if there were no query parameters and the pattern does not
already end in `/?`, an optional slash is appended; then the end anchor. -/
def glob_to_regex (glob : List Char) (protocolIndex : Nat) : Option CompiledRegex :=
  (globLoop glob protocolIndex (queryIdx glob protocolIndex) glob 0).map (fun toks =>
    if queryIdx glob protocolIndex = none ∧
        (String.toList "/?").isSuffixOf
          (String.toList "(?i)^" ++ (toks.map renderTok).flatten) = false then
      ⟨toks ++ [RTok.optSlash],
        String.toList "(?i)^" ++ (toks.map renderTok).flatten ++ String.toList "/?$"⟩
    else
      ⟨toks, String.toList "(?i)^" ++ (toks.map renderTok).flatten ++ String.toList "$"⟩)

/-- Message of the error produced by `build_glob` for a glob lacking the
protocol separator:
`eyre!("Invalid glob '{glob}', missing protocol separator '://'")`. -/
def errMsg (glob : List Char) : List Char :=
  String.toList "Invalid glob '" ++ glob ++
    String.toList "', missing protocol separator '://'"

/-- `pub struct Glob` of `src/glob.rs`: the two compiled patterns. -/
structure Glob : Type where
  with_protocol : CompiledRegex
  without_protocol : CompiledRegex
deriving DecidableEq, Repr

/-- `fn build_glob(glob: &str) -> Result<Glob>` of `src/glob.rs`.
`none` models a panic inside `glob_to_regex`; `some (Except.error m)` the
missing-separator error with displayed message `m`. -/
def build_glob (glob : List Char) : Option (Except (List Char) Glob) :=
  match findSub glob PROTOCOL_SEPARATOR with
  | none => some (Except.error (errMsg glob))
  | some protocolIndex =>
    (glob_to_regex glob protocolIndex).bind (fun wp =>
      (glob_to_regex (dropBytes glob (protocolIndex + 3)) 0).map (fun wop =>
        Except.ok ⟨wp, wop⟩))

/-- `Glob::is_match` of `src/glob.rs`: dispatch on whether the candidate
contains the protocol separator, then anchored evaluation. -/
def Glob.is_match (g : Glob) (url : List Char) : Bool :=
  match findSub url PROTOCOL_SEPARATOR with
  | some _ => rmatch g.with_protocol.toks url
  | none => rmatch g.without_protocol.toks url

/-- `Glob::new` restricted to its success value. -/
def builtGlob (glob : List Char) : Option Glob :=
  match build_glob glob with
  | some (Except.ok g) => some g
  | _ => none

/-- Result of compiling glob `g` and evaluating `Glob::is_match` on `u`
(`none` when compilation errors or panics). -/
def globIsMatch (g u : String) : Option Bool :=
  (builtGlob (String.toList g)).map (fun G => G.is_match (String.toList u))

/-- The two compiled pattern texts of a successfully compiled glob. -/
def compiledPatterns (glob : List Char) : List (List Char) :=
  match builtGlob glob with
  | some g => [g.with_protocol.pattern, g.without_protocol.pattern]
  | none => []

/-!
Configuration and URL filtering (`src/config.rs`, `src/main.rs`)
-/

/-- `pub struct AppConfig` of `src/config.rs`.  A raw-regex entry
(`MyRegex`, an arbitrary `regex_lite::Regex`) is modelled by its
`is_match` predicate, the only capability `filter_args` uses. -/
structure AppConfig : Type where
  ignored_urls : List Glob
  ignored_urls_regex : List (List Char → Bool)

/-- `fn filter_args` of `src/main.rs`, parameterised by the result of
`read_app_config` (`none` when no configuration is available). -/
def filter_args (config : Option AppConfig) (args : List (List Char)) :
    List (List Char) :=
  match config with
  | none => args
  | some config =>
    args.filter (fun url =>
      config.ignored_urls.all (fun it => !(it.is_match url)) &&
      config.ignored_urls_regex.all (fun it => !(it url)))

/-- Rust's `char::is_whitespace` (the Unicode `White_Space` property),
used by `read_app_config` through `str::trim`. -/
def isRustWhitespace (c : Char) : Bool :=
  (9 ≤ c.toNat && c.toNat ≤ 13) || c.toNat == 32 || c.toNat == 133 ||
  c.toNat == 160 || c.toNat == 5760 || (8192 ≤ c.toNat && c.toNat ≤ 8202) ||
  c.toNat == 8232 || c.toNat == 8233 || c.toNat == 8239 || c.toNat == 8287 ||
  c.toNat == 12288

/-- `fn read_app_config` of `src/config.rs`, over the observable file
state: `file = none` models `ErrorKind::NotFound` (→ `Ok(None)`); blank
contents (`contents.trim().is_empty()`, i.e. every character whitespace)
also give `Ok(None)`; otherwise the JSON parser (`serde_json`, passed
here as the parameter `parse`) decides the result. -/
def read_app_config (file : Option (List Char))
    (parse : List Char → Except (List Char) AppConfig) :
    Except (List Char) (Option AppConfig) :=
  match file with
  | none => Except.ok none
  | some contents =>
    if contents.all isRustWhitespace then Except.ok none
    else (parse contents).map some

/-!
Semantics of the emitted atoms
-/

theorem char_eq_of_toNat_eq {a b : Char} (h : a.toNat = b.toNat) : a = b :=
  Char.eq_of_val_eq (UInt32.ext h)

theorem char_eq_iff_toNat {a b : Char} : a = b ↔ a.toNat = b.toNat :=
  ⟨fun h => h ▸ rfl, char_eq_of_toNat_eq⟩

theorem mem_predSuffixes (p : Char → Bool) (s r : List Char) :
    r ∈ predSuffixes p s ↔ ∃ a, s = a ++ r ∧ a.all p = true := by
  induction s generalizing r with
  | nil =>
    simp only [predSuffixes, List.mem_singleton]
    constructor
    · rintro rfl; exact ⟨[], rfl, rfl⟩
    · rintro ⟨a, ha, -⟩
      rcases List.append_eq_nil.mp ha.symm with ⟨rfl, rfl⟩
      rfl
  | cons c cs ih =>
    simp only [predSuffixes]
    by_cases hc : p c = true
    · simp only [hc, if_true, List.mem_cons]
      constructor
      · rintro (rfl | hr)
        · exact ⟨[], rfl, rfl⟩
        · rcases (ih r).mp hr with ⟨a, rfl, ha⟩
          exact ⟨c :: a, rfl, by simp [List.all_cons, hc, ha]⟩
      · rintro ⟨a, ha, hall⟩
        cases a with
        | nil =>
          simp only [List.nil_append] at ha
          exact Or.inl ha.symm
        | cons a0 as =>
          simp only [List.cons_append, List.cons.injEq] at ha
          obtain ⟨h1, hcs⟩ := ha
          subst h1
          simp only [List.all_cons, Bool.and_eq_true] at hall
          exact Or.inr ((ih r).mpr ⟨as, hcs, hall.2⟩)
    · simp only [Bool.not_eq_true] at hc
      simp only [hc, Bool.false_eq_true, if_false, List.mem_singleton]
      constructor
      · rintro rfl; exact ⟨[], rfl, rfl⟩
      · rintro ⟨a, ha, hall⟩
        cases a with
        | nil => simpa using ha.symm
        | cons a0 as =>
          simp only [List.cons_append, List.cons.injEq] at ha
          obtain ⟨h1, -⟩ := ha
          subst h1
          simp [List.all_cons, hc] at hall

/-- Characterisation of the segment wildcard `[^\.:/]*?`: a `seg` atom
followed by `ts` matches `s` iff `s` splits into a run of characters
other than `.`, `:`, `/` followed by a remainder matched by `ts`. -/
theorem rmatch_seg_iff (ts : List RTok) (s : List Char) :
    rmatch (RTok.seg :: ts) s = true ↔
      ∃ a b, s = a ++ b ∧ a.all isSegChar = true ∧ rmatch ts b = true := by
  simp only [rmatch, List.any_eq_true]
  constructor
  · rintro ⟨r, hr, hm⟩
    rcases (mem_predSuffixes _ _ _).mp hr with ⟨a, rfl, ha⟩
    exact ⟨a, r, rfl, ha, hm⟩
  · rintro ⟨a, b, rfl, ha, hm⟩
    exact ⟨b, (mem_predSuffixes _ _ _).mpr ⟨a, rfl, ha⟩, hm⟩

/-- Characterisation of the unbounded wildcard `.*?`: an `any` atom
followed by `ts` matches `s` iff `s` splits into a run of non-newline
characters followed by a remainder matched by `ts`. -/
theorem rmatch_any_iff (ts : List RTok) (s : List Char) :
    rmatch (RTok.any :: ts) s = true ↔
      ∃ a b, s = a ++ b ∧ a.all isAnyChar = true ∧ rmatch ts b = true := by
  simp only [rmatch, List.any_eq_true]
  constructor
  · rintro ⟨r, hr, hm⟩
    rcases (mem_predSuffixes _ _ _).mp hr with ⟨a, rfl, ha⟩
    exact ⟨a, r, rfl, ha, hm⟩
  · rintro ⟨a, b, rfl, ha, hm⟩
    exact ⟨b, (mem_predSuffixes _ _ _).mpr ⟨a, rfl, ha⟩, hm⟩

/-!
Case variation (claim C8)
-/

/-- One character of a case flip: `b` is `a` with its ASCII case flipped
(the two ASCII letter ranges lie 32 code points apart). -/
def caseFlipped (a b : Char) : Bool :=
  (decide (97 ≤ a.toNat) && decide (a.toNat ≤ 122) && decide (b.toNat + 32 = a.toNat)) ||
  (decide (65 ≤ a.toNat) && decide (a.toNat ≤ 90) && decide (b.toNat = a.toNat + 32))

/-- `caseVar s t`: `t` is `s` with the case of some subset of its ASCII
letters flipped (every position is kept or case-flipped). -/
def caseVar : List Char → List Char → Bool
  | [], [] => true
  | a :: as, b :: bs => (b == a || caseFlipped a b) && caseVar as bs
  | _, _ => false

theorem stepOK_lowerNat {a b : Char} (h : (b == a || caseFlipped a b) = true) :
    lowerNat b = lowerNat a := by
  rcases Bool.or_eq_true_iff.mp h with hb | hf
  · rw [beq_iff_eq.mp hb]
  · simp only [caseFlipped, Bool.or_eq_true, Bool.and_eq_true, decide_eq_true_eq] at hf
    unfold lowerNat
    rcases hf with ⟨⟨h1, h2⟩, h3⟩ | ⟨⟨h1, h2⟩, h3⟩ <;> split_ifs <;> omega

theorem stepOK_charEqCI {a b : Char} (h : (b == a || caseFlipped a b) = true)
    (c : Char) : charEqCI b c = charEqCI a c := by
  unfold charEqCI
  rw [stepOK_lowerNat h]

/-- Code points that are not ASCII letters. -/
abbrev nonLetterCode (c : Char) : Prop :=
  c.toNat < 65 ∨ (90 < c.toNat ∧ c.toNat < 97) ∨ 122 < c.toNat

theorem stepOK_eq_nonletter {a b : Char} (h : (b == a || caseFlipped a b) = true)
    (c : Char) (hc : nonLetterCode c) : (b = c) ↔ (a = c) := by
  rw [char_eq_iff_toNat, char_eq_iff_toNat]
  rcases Bool.or_eq_true_iff.mp h with hb | hf
  · rw [beq_iff_eq.mp hb]
  · simp only [caseFlipped, Bool.or_eq_true, Bool.and_eq_true, decide_eq_true_eq] at hf
    unfold nonLetterCode at hc
    constructor <;> intro hx <;> omega

theorem stepOK_beq_nonletter {a b : Char} (h : (b == a || caseFlipped a b) = true)
    (c : Char) (hc : nonLetterCode c) : (b == c) = (a == c) := by
  rw [Bool.eq_iff_iff, beq_iff_eq, beq_iff_eq]
  exact stepOK_eq_nonletter h c hc

theorem stepOK_isSegChar {a b : Char} (h : (b == a || caseFlipped a b) = true) :
    isSegChar b = isSegChar a := by
  unfold isSegChar
  rw [stepOK_beq_nonletter h '.' (by decide), stepOK_beq_nonletter h ':' (by decide),
    stepOK_beq_nonletter h '/' (by decide)]

theorem stepOK_isAnyChar {a b : Char} (h : (b == a || caseFlipped a b) = true) :
    isAnyChar b = isAnyChar a := by
  unfold isAnyChar
  rw [stepOK_beq_nonletter h '\n' (by decide)]

/-- Pointwise `caseVar` on lists of candidate remainders. -/
def caseVars : List (List Char) → List (List Char) → Bool
  | [], [] => true
  | a :: as, b :: bs => caseVar a b && caseVars as bs
  | _, _ => false

theorem predSuffixes_caseVars (p : Char → Bool)
    (hp : ∀ a b : Char, (b == a || caseFlipped a b) = true → p b = p a) :
    ∀ s t, caseVar s t = true → caseVars (predSuffixes p s) (predSuffixes p t) = true := by
  intro s
  induction s with
  | nil =>
    intro t h
    cases t with
    | nil => rfl
    | cons b bs => simp [caseVar] at h
  | cons a as ih =>
    intro t h
    cases t with
    | nil => simp [caseVar] at h
    | cons b bs =>
      have hco := h
      simp only [caseVar, Bool.and_eq_true] at h
      simp only [predSuffixes]
      rw [hp a b h.1]
      by_cases hpa : p a = true
      · simp only [hpa, if_true]
        simp only [caseVars, Bool.and_eq_true]
        exact ⟨hco, ih bs h.2⟩
      · simp only [Bool.not_eq_true] at hpa
        simp only [hpa, Bool.false_eq_true, if_false]
        simp only [caseVars, Bool.and_eq_true]
        exact ⟨hco, trivial⟩

theorem any_of_caseVars {f : List Char → Bool}
    (hf : ∀ r1 r2, caseVar r1 r2 = true → f r1 = f r2) :
    ∀ l1 l2, caseVars l1 l2 = true → l1.any f = l2.any f := by
  intro l1
  induction l1 with
  | nil =>
    intro l2 h
    cases l2 with
    | nil => rfl
    | cons b bs => simp [caseVars] at h
  | cons a as ih =>
    intro l2 h
    cases l2 with
    | nil => simp [caseVars] at h
    | cons b bs =>
      simp only [caseVars, Bool.and_eq_true] at h
      simp only [List.any_cons, hf a b h.1, ih bs h.2]

/-- Matching is invariant under case variation of the candidate: every
atom's semantics is ASCII-case-insensitive (literals by `(?i)` folding,
the classes because their distinguished characters are not letters). -/
theorem rmatch_caseVar (toks : List RTok) :
    ∀ s t, caseVar s t = true → rmatch toks s = rmatch toks t := by
  induction toks with
  | nil =>
    intro s t h
    cases s with
    | nil => cases t with
      | nil => rfl
      | cons b bs => simp [caseVar] at h
    | cons a as => cases t with
      | nil => simp [caseVar] at h
      | cons b bs => rfl
  | cons tok ts ih =>
    intro s t h
    cases tok with
    | lit c =>
      cases s with
      | nil => cases t with
        | nil => rfl
        | cons b bs => simp [caseVar] at h
      | cons a as => cases t with
        | nil => simp [caseVar] at h
        | cons b bs =>
          simp only [caseVar, Bool.and_eq_true] at h
          simp only [rmatch]
          rw [stepOK_charEqCI h.1 c, ih as bs h.2]
    | optSlash =>
      cases s with
      | nil => cases t with
        | nil => rfl
        | cons b bs => simp [caseVar] at h
      | cons a as => cases t with
        | nil => simp [caseVar] at h
        | cons b bs =>
          have hco := h
          simp only [caseVar, Bool.and_eq_true] at h
          simp only [rmatch]
          rw [ih (a :: as) (b :: bs) hco]
          have hiff := stepOK_eq_nonletter h.1 '/' (by decide)
          by_cases ha : a = '/'
          · have hb : b = '/' := hiff.mpr ha
            rw [if_pos ha, if_pos hb, ih as bs h.2]
          · have hb : ¬ b = '/' := fun hbe => ha (hiff.mp hbe)
            rw [if_neg ha, if_neg hb]
    | seg =>
      simp only [rmatch]
      exact any_of_caseVars (fun r1 r2 hr => ih r1 r2 hr) _ _
        (predSuffixes_caseVars isSegChar (fun a b hab => stepOK_isSegChar hab) s t h)
    | any =>
      simp only [rmatch]
      exact any_of_caseVars (fun r1 r2 hr => ih r1 r2 hr) _ _
        (predSuffixes_caseVars isAnyChar (fun a b hab => stepOK_isAnyChar hab) s t h)

theorem isPrefixOf_caseVar :
    ∀ (pat : List Char), (∀ c ∈ pat, nonLetterCode c) →
      ∀ s t, caseVar s t = true → pat.isPrefixOf s = pat.isPrefixOf t := by
  intro pat
  induction pat with
  | nil => intro _ s t _; cases s <;> cases t <;> rfl
  | cons pc pr ih =>
    intro hp s t h
    cases s with
    | nil => cases t with
      | nil => rfl
      | cons b bs => simp [caseVar] at h
    | cons a as => cases t with
      | nil => simp [caseVar] at h
      | cons b bs =>
        simp only [caseVar, Bool.and_eq_true] at h
        simp only [List.isPrefixOf]
        have h1 : (pc == a) = (pc == b) := by
          rw [Bool.eq_iff_iff, beq_iff_eq, beq_iff_eq, eq_comm, @eq_comm _ pc b]
          exact (stepOK_eq_nonletter h.1 pc (hp pc (List.mem_cons_self _ _))).symm
        rw [h1, ih (fun c hc => hp c (List.mem_cons_of_mem _ hc)) as bs h.2]

theorem findSubAux_isSome_caseVar (pat : List Char)
    (hp : ∀ c ∈ pat, nonLetterCode c) :
    ∀ s t o1 o2, caseVar s t = true →
      (findSubAux pat s o1).isSome = (findSubAux pat t o2).isSome := by
  intro s
  induction s with
  | nil =>
    intro t o1 o2 h
    cases t with
    | nil =>
      simp only [findSubAux]
      cases hq : pat.isPrefixOf [] <;> simp [hq]
    | cons b bs => simp [caseVar] at h
  | cons a as ih =>
    intro t o1 o2 h
    cases t with
    | nil => simp [caseVar] at h
    | cons b bs =>
      have hco := h
      simp only [caseVar, Bool.and_eq_true] at h
      simp only [findSubAux]
      rw [isPrefixOf_caseVar pat hp (a :: as) (b :: bs) hco]
      cases hq : pat.isPrefixOf (b :: bs)
      · simp only [hq, Bool.false_eq_true, if_false]
        exact ih bs (o1 + a.utf8Size) (o2 + b.utf8Size) h.2
      · simp [hq]

/-!
Substring search vs. infix
-/

theorem hasSubstring_iff_occurs (s pat : List Char) :
    hasSubstring s pat = true ↔ pat <:+: s := by
  unfold hasSubstring findSub
  suffices hgen : ∀ off, (findSubAux pat s off).isSome = true ↔ pat <:+: s from hgen 0
  induction s with
  | nil =>
    intro off
    simp only [findSubAux]
    cases hq : pat.isPrefixOf []
    · simp only [hq, Bool.false_eq_true, if_false, Option.isSome_none,
        Bool.false_eq_true, false_iff]
      intro hinf
      have hnil : pat = [] := List.infix_nil.mp hinf
      subst hnil
      exact absurd hq (by decide)
    · simp only [hq, if_true, Option.isSome_some, true_iff]
      have hpre : pat <+: ([] : List Char) := List.isPrefixOf_iff_prefix.mp hq
      exact hpre.isInfix
  | cons a as ih =>
    intro off
    simp only [findSubAux]
    cases hq : pat.isPrefixOf (a :: as)
    · simp only [hq, Bool.false_eq_true, if_false]
      rw [ih (off + a.utf8Size), List.infix_cons_iff]
      constructor
      · exact Or.inr
      · rintro (hp | hi)
        · exact absurd (List.isPrefixOf_iff_prefix.mpr hp) (by simp [hq])
        · exact hi
    · simp only [hq, if_true, Option.isSome_some, true_iff]
      exact (List.isPrefixOf_iff_prefix.mp hq).isInfix

/-!
Dollar counting (claim C9)
-/

theorem count_dollar_lit {c : Char} (h : c ≠ '$') :
    (renderTok (RTok.lit c)).count '$' = 0 := by
  simp only [renderTok]
  split <;> simp [List.count_cons, h]

theorem count_dollar_optSlash : (renderTok RTok.optSlash).count '$' = 0 := by decide

theorem mem_of_mem_dropBytes {c : Char} :
    ∀ (l : List Char) (n : Nat), c ∈ dropBytes l n → c ∈ l := by
  intro l
  induction l with
  | nil =>
    intro n h
    cases n <;> simp [dropBytes] at h
  | cons a as ih =>
    intro n h
    cases n with
    | zero => exact h
    | succ m =>
      simp only [dropBytes] at h
      exact List.mem_cons_of_mem _ (ih _ h)

/-- All atoms emitted by the scan loop from a `'$'`-free remainder render
to `'$'`-free text. -/
theorem globLoop_dollar_free (glob : List Char) (protocolIndex : Nat)
    (qIdx : Option Nat) :
    ∀ (n : Nat) (rest : List Char) (index : Nat) (toks : List RTok),
      rest.length ≤ n → '$' ∉ rest →
      globLoop glob protocolIndex qIdx rest index = some toks →
      ((toks.map renderTok).flatten).count '$' = 0 := by
  intro n
  induction n with
  | zero =>
    intro rest index toks hlen hd hloop
    have hr : rest = [] := List.length_eq_zero.mp (Nat.le_zero.mp hlen)
    subst hr
    rcases Nat.lt_or_ge index (utf8Len glob) with hi | hi
    · simp only [globLoop, if_pos hi] at hloop
      exact Option.noConfusion hloop
    · simp only [globLoop, if_neg (Nat.not_lt.mpr hi), Option.some.injEq] at hloop
      subst hloop
      simp
  | succ n ih =>
    intro rest index toks hlen hd hloop
    cases rest with
    | nil =>
      rcases Nat.lt_or_ge index (utf8Len glob) with hi | hi
      · simp only [globLoop, if_pos hi] at hloop
        exact Option.noConfusion hloop
      · simp only [globLoop, if_neg (Nat.not_lt.mpr hi), Option.some.injEq] at hloop
        subst hloop
        simp
    | cons cur rest1 =>
      have hcur : cur ≠ '$' := fun hcc => hd (hcc ▸ List.mem_cons_self _ _)
      have hd1 : '$' ∉ rest1 := fun hm => hd (List.mem_cons_of_mem _ hm)
      cases rest1 with
      | nil =>
        rcases Nat.lt_or_ge index (utf8Len glob) with hi | hi
        · rw [globLoop, if_pos hi] at hloop
          split at hloop
          · rcases Option.map_eq_some'.mp hloop with ⟨ts, hts, rfl⟩
            have h0 := ih [] (index + 1) ts (by simp) (by simp) hts
            simp [List.count_append, h0, count_dollar_optSlash]
          · split at hloop
            · rcases Option.map_eq_some'.mp hloop with ⟨ts, hts, rfl⟩
              have h0 := ih [] (index + 1) ts (by simp) (by simp) hts
              have htok : (renderTok
                  (if afterQueryB qIdx index then RTok.any else RTok.seg)).count '$' = 0 := by
                split <;> decide
              simp [List.count_append, h0, htok]
            · rcases Option.map_eq_some'.mp hloop with ⟨ts, hts, rfl⟩
              have h0 := ih [] (index + 1) ts (by simp) (by simp) hts
              simp [List.count_append, h0, count_dollar_lit hcur]
        · rw [globLoop, if_neg (Nat.not_lt.mpr hi)] at hloop
          simp only [Option.some.injEq] at hloop
          subst hloop
          simp
      | cons next rest2 =>
        have hnext : next ≠ '$' := fun hcc => hd1 (hcc ▸ List.mem_cons_self _ _)
        have hd2 : '$' ∉ rest2 := fun hm => hd1 (List.mem_cons_of_mem _ hm)
        have hlen1 : (next :: rest2).length ≤ n := by
          simp only [List.length_cons] at hlen ⊢
          omega
        have hlen2 : rest2.length ≤ n := by
          simp only [List.length_cons] at hlen ⊢
          omega
        rcases Nat.lt_or_ge index (utf8Len glob) with hi | hi
        · rw [globLoop, if_pos hi] at hloop
          split at hloop
          · rcases Option.map_eq_some'.mp hloop with ⟨ts, hts, rfl⟩
            have h0 := ih (next :: rest2) (index + 1) ts hlen1 hd1 hts
            simp [List.count_append, h0, count_dollar_optSlash]
          · split at hloop
            · rcases Option.map_eq_some'.mp hloop with ⟨ts, hts, rfl⟩
              have h0 := ih rest2 (index + 2) ts hlen2 hd2 hts
              have htok : (renderTok
                  (if index < protocolIndex then RTok.seg else RTok.any)).count '$' = 0 := by
                split <;> decide
              simp [List.count_append, h0, htok]
            · split at hloop
              · rcases Option.map_eq_some'.mp hloop with ⟨ts, hts, rfl⟩
                have h0 := ih (next :: rest2) (index + 1) ts hlen1 hd1 hts
                have htok : (renderTok
                    (if afterQueryB qIdx index then RTok.any else RTok.seg)).count '$' = 0 := by
                  split <;> decide
                simp [List.count_append, h0, htok]
              · rcases Option.map_eq_some'.mp hloop with ⟨ts, hts, rfl⟩
                have h0 := ih (next :: rest2) (index + 1) ts hlen1 hd1 hts
                simp [List.count_append, h0, count_dollar_lit hcur]
        · rw [globLoop, if_neg (Nat.not_lt.mpr hi)] at hloop
          simp only [Option.some.injEq] at hloop
          subst hloop
          simp

/-- A successfully compiled pass of a `'$'`-free glob has exactly one `'$'`
in its pattern text: the final end anchor. -/
theorem glob_to_regex_dollar (glob : List Char) (protocolIndex : Nat)
    (cr : CompiledRegex) (hg : '$' ∉ glob)
    (h : glob_to_regex glob protocolIndex = some cr) :
    cr.pattern.count '$' = 1 := by
  unfold glob_to_regex at h
  rcases Option.map_eq_some'.mp h with ⟨toks, hloop, heq⟩
  have h0 : ((toks.map renderTok).flatten).count '$' = 0 :=
    globLoop_dollar_free glob protocolIndex _ glob.length glob 0 toks le_rfl hg hloop
  have hpre : (String.toList "(?i)^").count '$' = 0 := by decide
  rw [← heq]
  split <;> simp only [List.count_append, h0, hpre] <;> decide

theorem count_ge_two_of_dd {l : List Char}
    (h : (String.toList "$$") <:+: l) : 2 ≤ l.count '$' := by
  rcases h with ⟨u, v, rfl⟩
  have hc : List.count '$' (String.toList "$$") = 2 := by decide
  simp only [List.count_append, hc]
  omega

theorem no_dd_of_count_one {l : List Char} (h : l.count '$' = 1) :
    hasSubstring l (String.toList "$$") = false := by
  cases hq : hasSubstring l (String.toList "$$")
  · rfl
  · exfalso
    have h2 := count_ge_two_of_dd ((hasSubstring_iff_occurs _ _).mp hq)
    omega

/-- Decomposition of a successful compilation. -/
theorem builtGlob_eq_some {glob : List Char} {G : Glob}
    (h : builtGlob glob = some G) :
    ∃ protocolIndex, findSub glob PROTOCOL_SEPARATOR = some protocolIndex ∧
      glob_to_regex glob protocolIndex = some G.with_protocol ∧
      glob_to_regex (dropBytes glob (protocolIndex + 3)) 0 = some G.without_protocol := by
  unfold builtGlob at h
  cases hb : build_glob glob with
  | none => rw [hb] at h; exact Option.noConfusion h
  | some r =>
    rw [hb] at h
    cases r with
    | error e => exact Option.noConfusion h
    | ok g =>
      simp only [Option.some.injEq] at h
      subst h
      unfold build_glob at hb
      cases hf : findSub glob PROTOCOL_SEPARATOR with
      | none =>
        rw [hf] at hb
        simp at hb
      | some protocolIndex =>
        rw [hf] at hb
        rcases Option.bind_eq_some.mp hb with ⟨wp, hwp, hrest⟩
        rcases Option.map_eq_some'.mp hrest with ⟨wop, hwop, hok⟩
        have hg : g = ⟨wp, wop⟩ := by
          cases hok
          rfl
        subst hg
        exact ⟨protocolIndex, rfl, hwp, hwop⟩

/-!
Emission equations of the scan loop
-/

theorem globLoop_slash_optional (glob : List Char) (protocolIndex : Nat)
    (rest : List Char) (index : Nat) (hi : index < utf8Len glob)
    (hgt : protocolIndex + 2 < index) :
    globLoop glob protocolIndex none ('/' :: rest) index =
      (globLoop glob protocolIndex none rest (index + 1)).map
        (fun ts => RTok.optSlash :: ts) := by
  cases rest with
  | nil =>
    conv_lhs => rw [globLoop]
    rw [if_pos hi, if_pos ⟨rfl, Or.inl ⟨rfl, hgt⟩⟩]
  | cons next rest2 =>
    conv_lhs => rw [globLoop]
    rw [if_pos hi, if_pos ⟨rfl, Or.inl ⟨rfl, hgt⟩⟩]

theorem globLoop_single_star (glob : List Char) (protocolIndex : Nat)
    (qIdx : Option Nat) (next : Char) (rest : List Char) (index : Nat)
    (hi : index < utf8Len glob) (hnext : next ≠ '*')
    (hq : afterQueryB qIdx index = false) :
    globLoop glob protocolIndex qIdx ('*' :: next :: rest) index =
      (globLoop glob protocolIndex qIdx (next :: rest) (index + 1)).map
        (fun ts => RTok.seg :: ts) := by
  conv_lhs => rw [globLoop]
  rw [if_pos hi, if_neg (fun hc => absurd hc.1 (by decide)),
    if_neg (fun hc => hnext hc.2), if_pos rfl]
  simp only [hq, Bool.false_eq_true, if_false]

theorem globLoop_double_star_after (glob : List Char) (protocolIndex : Nat)
    (qIdx : Option Nat) (rest : List Char) (index : Nat)
    (hi : index < utf8Len glob) (hge : ¬ index < protocolIndex) :
    globLoop glob protocolIndex qIdx ('*' :: '*' :: rest) index =
      (globLoop glob protocolIndex qIdx rest (index + 2)).map
        (fun ts => RTok.any :: ts) := by
  conv_lhs => rw [globLoop]
  rw [if_pos hi, if_neg (fun hc => absurd hc.1 (by decide)), if_pos ⟨rfl, rfl⟩]
  simp only [if_neg hge]

theorem globLoop_double_star_before (glob : List Char) (protocolIndex : Nat)
    (qIdx : Option Nat) (rest : List Char) (index : Nat)
    (hi : index < utf8Len glob) (hlt : index < protocolIndex) :
    globLoop glob protocolIndex qIdx ('*' :: '*' :: rest) index =
      (globLoop glob protocolIndex qIdx rest (index + 2)).map
        (fun ts => RTok.seg :: ts) := by
  conv_lhs => rw [globLoop]
  rw [if_pos hi, if_neg (fun hc => absurd hc.1 (by decide)), if_pos ⟨rfl, rfl⟩]
  simp only [if_pos hlt]

/-!
Claims
-/

/-- C1: a single `*` (not doubled, not after the query-parameter index) is
compiled to the segment wildcard `[^\.:/]*?`, which matches exactly the
runs of characters excluding `.`, `:` and `/` (including the empty run)
and cannot match across those characters; concretely, the Matcher for
`https://*.example.com` matches `https://www.example.com` but neither
`https://a.b.example.com` nor `https://a:b.example.com`. -/
theorem c1_single_star_segment_wildcard :
    (∀ glob protocolIndex qIdx (next : Char) rest index,
        index < utf8Len glob → next ≠ '*' → afterQueryB qIdx index = false →
        globLoop glob protocolIndex qIdx ('*' :: next :: rest) index =
          (globLoop glob protocolIndex qIdx (next :: rest) (index + 1)).map
            (fun ts => RTok.seg :: ts)) ∧
    (∀ ts s, rmatch (RTok.seg :: ts) s = true ↔
        ∃ a b, s = a ++ b ∧ a.all isSegChar = true ∧ rmatch ts b = true) ∧
    (∀ c : Char, isSegChar c = true ↔ (c ≠ '.' ∧ c ≠ ':' ∧ c ≠ '/')) ∧
    globIsMatch "https://*.example.com" "https://www.example.com" = some true ∧
    globIsMatch "https://*.example.com" "https://a.b.example.com" = some false ∧
    globIsMatch "https://*.example.com" "https://a:b.example.com" = some false := by
  refine ⟨globLoop_single_star, rmatch_seg_iff, ?_, by decide, by decide, by decide⟩
  intro c
  simp [isSegChar, not_or, and_assoc]

theorem c1_witness :
    (globLoop (String.toList "https://*.example.com") 5 none
        ('*' :: '.' :: String.toList "example.com") 8 =
      (globLoop (String.toList "https://*.example.com") 5 none
          ('.' :: String.toList "example.com") (8 + 1)).map
        (fun ts => RTok.seg :: ts)) ∧
    (rmatch (RTok.seg :: []) (String.toList "www") = true ↔
      ∃ a b, String.toList "www" = a ++ b ∧ a.all isSegChar = true ∧
        rmatch [] b = true) ∧
    (isSegChar 'w' = true ↔ ('w' ≠ '.' ∧ 'w' ≠ ':' ∧ 'w' ≠ '/')) ∧
    globIsMatch "https://*.example.com" "https://www.example.com" = some true :=
  ⟨c1_single_star_segment_wildcard.1 _ _ _ _ _ _ (by decide) (by decide) (by decide),
   c1_single_star_segment_wildcard.2.1 [] _,
   c1_single_star_segment_wildcard.2.2.1 'w',
   c1_single_star_segment_wildcard.2.2.2.1⟩

/-- C2 counterexample: the claim states that `**` at or after the
protocol-separator offset matches ANY sequence of characters, but the
emitted `.*?` does not match a newline: the Matcher for
`https://**example.com` returns false on `https://a\nexample.com`,
although that candidate is glob prefix, any characters, then
`example.com`. -/
theorem c2_counterexample_newline :
    globIsMatch "https://**example.com" "https://a\nexample.com" = some false := by
  decide

/-- C2 (amended): `**` at or after the protocol-separator offset compiles
to `.*?`, matching any sequence of NON-NEWLINE characters (including the
empty sequence and `.`/`:`/`/`); `**` strictly before the offset compiles
to the segment wildcard instead.  Concretely `https://**example.com`
matches `https://example.com` and `https://a.b.c.example.com`, while
`**://example.com` does not match `https.extra://example.com`. -/
theorem c2_double_star_amended :
    (∀ ts s, rmatch (RTok.any :: ts) s = true ↔
        ∃ a b, s = a ++ b ∧ a.all isAnyChar = true ∧ rmatch ts b = true) ∧
    (∀ c : Char, isAnyChar c = true ↔ c ≠ '\n') ∧
    (∀ glob protocolIndex qIdx rest index,
        index < utf8Len glob → ¬ index < protocolIndex →
        globLoop glob protocolIndex qIdx ('*' :: '*' :: rest) index =
          (globLoop glob protocolIndex qIdx rest (index + 2)).map
            (fun ts => RTok.any :: ts)) ∧
    (∀ glob protocolIndex qIdx rest index,
        index < utf8Len glob → index < protocolIndex →
        globLoop glob protocolIndex qIdx ('*' :: '*' :: rest) index =
          (globLoop glob protocolIndex qIdx rest (index + 2)).map
            (fun ts => RTok.seg :: ts)) ∧
    globIsMatch "https://**example.com" "https://example.com" = some true ∧
    globIsMatch "https://**example.com" "https://a.b.c.example.com" = some true ∧
    globIsMatch "**://example.com" "https.extra://example.com" = some false := by
  refine ⟨rmatch_any_iff, ?_, globLoop_double_star_after, globLoop_double_star_before,
    by decide, by decide, by decide⟩
  intro c
  simp [isAnyChar]

theorem c2_witness :
    (rmatch (RTok.any :: []) (String.toList "a.b") = true ↔
      ∃ a b, String.toList "a.b" = a ++ b ∧ a.all isAnyChar = true ∧
        rmatch [] b = true) ∧
    (isAnyChar 'x' = true ↔ 'x' ≠ '\n') ∧
    (globLoop (String.toList "https://**example.com") 5 none
        ('*' :: '*' :: String.toList "example.com") 8 =
      (globLoop (String.toList "https://**example.com") 5 none
          (String.toList "example.com") (8 + 2)).map
        (fun ts => RTok.any :: ts)) ∧
    (globLoop (String.toList "**://example.com") 2 none
        ('*' :: '*' :: String.toList "://example.com") 0 =
      (globLoop (String.toList "**://example.com") 2 none
          (String.toList "://example.com") (0 + 2)).map
        (fun ts => RTok.seg :: ts)) ∧
    globIsMatch "https://**example.com" "https://example.com" = some true :=
  ⟨c2_double_star_amended.1 [] _,
   c2_double_star_amended.2.1 'x',
   c2_double_star_amended.2.2.1 _ _ _ _ _ (by decide) (by decide),
   c2_double_star_amended.2.2.2.1 _ _ _ _ _ (by decide) (by decide),
   c2_double_star_amended.2.2.2.2.1⟩

/-- C3: for every input lacking the substring `://`, `Glob::new` returns
an error whose displayed message contains both the original input and the
literal `://`. -/
theorem c3_missing_protocol_error (s : List Char)
    (h : hasSubstring s PROTOCOL_SEPARATOR = false) :
    build_glob s = some (Except.error (errMsg s)) ∧
    hasSubstring (errMsg s) s = true ∧
    hasSubstring (errMsg s) PROTOCOL_SEPARATOR = true := by
  have hf : findSub s PROTOCOL_SEPARATOR = none := by
    unfold hasSubstring at h
    exact Option.not_isSome_iff_eq_none.mp (by simp [h])
  refine ⟨?_, ?_, ?_⟩
  · unfold build_glob
    rw [hf]
  · rw [hasSubstring_iff_occurs]
    exact ⟨String.toList "Invalid glob '",
      String.toList "', missing protocol separator '://'", rfl⟩
  · rw [hasSubstring_iff_occurs]
    refine ⟨String.toList "Invalid glob '" ++ s ++
      String.toList "', missing protocol separator '", String.toList "'", ?_⟩
    have hsplit : String.toList "', missing protocol separator '://'" =
        String.toList "', missing protocol separator '" ++ PROTOCOL_SEPARATOR ++
          String.toList "'" := by decide
    unfold errMsg
    rw [hsplit]
    simp [List.append_assoc]

theorem c3_witness :
    hasSubstring (String.toList "example.com") PROTOCOL_SEPARATOR = false ∧
    (build_glob (String.toList "example.com") =
        some (Except.error (errMsg (String.toList "example.com"))) ∧
      hasSubstring (errMsg (String.toList "example.com"))
        (String.toList "example.com") = true ∧
      hasSubstring (errMsg (String.toList "example.com"))
        PROTOCOL_SEPARATOR = true) :=
  ⟨by decide, c3_missing_protocol_error _ (by decide)⟩

/-- C4: the protocol-separator slashes are never made optional: the
Matcher for `https://example.com` rejects `https:example.com` and
`https:/example.com`. -/
theorem c4_protocol_slashes_mandatory :
    globIsMatch "https://example.com" "https:example.com" = some false ∧
    globIsMatch "https://example.com" "https:/example.com" = some false :=
  ⟨by decide, by decide⟩

/-- C5: end-to-end scenario: `https://**.tracking.com/**` matches
`https://pixel.tracking.com/collect?id=123&event=click` and rejects the
domain-suffix confusion `https://tracking.com.evil.net/x`. -/
theorem c5_tracking_end_to_end :
    globIsMatch "https://**.tracking.com/**"
        "https://pixel.tracking.com/collect?id=123&event=click" = some true ∧
    globIsMatch "https://**.tracking.com/**"
        "https://tracking.com.evil.net/x" = some false :=
  ⟨by decide, by decide⟩

/-- C6 counterexample: the claim states that in the without-protocol pass
every slash is optional and in particular that the Matcher for
`https://a/b` matches the bare candidate `ab`; it does not, because the
optional-slash guard `index > protocol_index + 2` is applied with the
effective offset 0, keeping slashes at index ≤ 2 literal. -/
theorem c6_counterexample_protocol_offset_slash :
    globIsMatch "https://a/b" "ab" = some false := by decide

/-- C6 (amended): with no query parameters in the pattern, a slash is
emitted as an optional slash exactly when its index exceeds
`protocol_index + 2` IN THE PASS AT HAND; in the without-protocol pass
(effective offset 0) slashes at index ≤ 2 therefore remain literal.
Concretely `https://a/b` matches `a/b` but not the bare `ab`, whereas
`https://x/a/b` (whose without-protocol slash at index 3 exceeds 2)
matches `x/ab` but not `xa/b`. -/
theorem c6_slash_optionality_amended :
    (∀ glob protocolIndex rest index,
        index < utf8Len glob → protocolIndex + 2 < index →
        globLoop glob protocolIndex none ('/' :: rest) index =
          (globLoop glob protocolIndex none rest (index + 1)).map
            (fun ts => RTok.optSlash :: ts)) ∧
    globIsMatch "https://a/b" "a/b" = some true ∧
    globIsMatch "https://a/b" "ab" = some false ∧
    globIsMatch "https://x/a/b" "x/ab" = some true ∧
    globIsMatch "https://x/a/b" "xa/b" = some false :=
  ⟨globLoop_slash_optional, by decide, by decide, by decide, by decide⟩

theorem c6_witness :
    (globLoop (String.toList "https://a/b") 5 none ('/' :: String.toList "b") 9 =
      (globLoop (String.toList "https://a/b") 5 none (String.toList "b") (9 + 1)).map
        (fun ts => RTok.optSlash :: ts)) ∧
    globIsMatch "https://a/b" "a/b" = some true :=
  ⟨c6_slash_optionality_amended.1 _ 5 _ 9 (by decide) (by decide),
   c6_slash_optionality_amended.2.1⟩

/-- C7: evaluation of the code at the failing input.  `Glob::new("a://é")`
panics (modelled as `none`): the scan loop bounds the character index by
the BYTE length `glob.len()` while reading `glob.chars().nth(index)`, so
for any glob containing a multi-byte character the iterator is exhausted
before the loop ends and `.unwrap()` panics — contradicting the claim
that `Glob::new` always returns a Matcher or an error. -/
theorem c7_multibyte_input_panics :
    build_glob (String.toList "a://é") = none := rfl

/-- C8: matching is invariant under flipping the case of any subset of
the candidate's letters — the dispatch on `://` is unaffected (its
characters are not letters) and every atom matches case-insensitively
under the `(?i)` flag. -/
theorem c8_case_insensitivity (g s t : List Char) (h : caseVar s t = true) :
    (builtGlob g).map (fun G => G.is_match s) =
      (builtGlob g).map (fun G => G.is_match t) := by
  cases hG : builtGlob g with
  | none => rfl
  | some G =>
    simp only [Option.map_some']
    have hsep : ∀ c ∈ PROTOCOL_SEPARATOR, nonLetterCode c := by decide
    have hfind : (findSub s PROTOCOL_SEPARATOR).isSome =
        (findSub t PROTOCOL_SEPARATOR).isSome :=
      findSubAux_isSome_caseVar PROTOCOL_SEPARATOR hsep s t 0 0 h
    unfold Glob.is_match
    cases hs : findSub s PROTOCOL_SEPARATOR with
    | some v =>
      cases ht : findSub t PROTOCOL_SEPARATOR with
      | some w =>
        show some (rmatch G.with_protocol.toks s) =
          some (rmatch G.with_protocol.toks t)
        rw [rmatch_caseVar _ s t h]
      | none =>
        rw [hs, ht] at hfind
        exact absurd hfind (by simp)
    | none =>
      cases ht : findSub t PROTOCOL_SEPARATOR with
      | some w =>
        rw [hs, ht] at hfind
        exact absurd hfind (by simp)
      | none =>
        show some (rmatch G.without_protocol.toks s) =
          some (rmatch G.without_protocol.toks t)
        rw [rmatch_caseVar _ s t h]

theorem c8_witness :
    caseVar (String.toList "HTTPS://Example.com")
        (String.toList "https://example.COM") = true ∧
    (builtGlob (String.toList "https://example.com")).map
        (fun G => G.is_match (String.toList "HTTPS://Example.com")) =
      (builtGlob (String.toList "https://example.com")).map
        (fun G => G.is_match (String.toList "https://example.COM")) :=
  ⟨by decide, c8_case_insensitivity _ _ _ (by decide)⟩

/-- C9 counterexample: the claim states the compiled pattern text never
contains `$$`, but the glob `a://b?x=$` compiles and both of its pattern
texts end in `\$$` (escaped dollar followed by the end anchor), which
contains the substring `$$`. -/
theorem c9_counterexample_dollar :
    (compiledPatterns (String.toList "a://b?x=$")).any
      (fun p => hasSubstring p (String.toList "$$")) = true := by decide

/-- C9 (amended): for every successfully compiling glob that contains no
`'$'` character, neither compiled pattern text contains the substring
`$$` (each such pattern contains exactly one `'$'`: the end anchor). -/
theorem c9_no_double_anchor_amended (glob : List Char) (h : '$' ∉ glob) :
    (compiledPatterns glob).all
      (fun p => !(hasSubstring p (String.toList "$$"))) = true := by
  cases hG : builtGlob glob with
  | none => simp [compiledPatterns, hG]
  | some G =>
    rcases builtGlob_eq_some hG with ⟨protocolIndex, hf, hwp, hwop⟩
    have h1 := glob_to_regex_dollar glob protocolIndex G.with_protocol h hwp
    have h2 := glob_to_regex_dollar _ 0 G.without_protocol
      (fun hm => h (mem_of_mem_dropBytes _ _ hm)) hwop
    simp only [compiledPatterns, hG, List.all_cons, List.all_nil, Bool.and_true,
      Bool.and_eq_true]
    rw [no_dd_of_count_one h1, no_dd_of_count_one h2]
    exact ⟨rfl, rfl⟩

theorem c9_witness :
    ('$' ∉ String.toList "https://example.com") ∧
    (compiledPatterns (String.toList "https://example.com")).all
      (fun p => !(hasSubstring p (String.toList "$$"))) = true :=
  ⟨by decide, c9_no_double_anchor_amended _ (by decide)⟩

/-- C10: with no configuration available the argument list is returned
unchanged; with a configuration, the result is the order-preserving
subsequence of the arguments matched by no glob entry and no raw-regex
entry.  The read model: an absent file and blank contents both yield "no
configuration". -/
theorem c10_filter_args :
    (∀ args, filter_args none args = args) ∧
    (∀ parse, read_app_config none parse = Except.ok none) ∧
    (∀ parse contents, contents.all isRustWhitespace = true →
        read_app_config (some contents) parse = Except.ok none) ∧
    (∀ c args, (filter_args (some c) args).Sublist args) ∧
    (∀ c args url, url ∈ filter_args (some c) args ↔
        url ∈ args ∧ (∀ g ∈ c.ignored_urls, g.is_match url = false) ∧
          (∀ r ∈ c.ignored_urls_regex, r url = false)) := by
  refine ⟨fun args => rfl, fun parse => rfl, ?_, ?_, ?_⟩
  · intro parse contents hc
    simp [read_app_config, hc]
  · intro c args
    exact List.filter_sublist args
  · intro c args url
    simp only [filter_args, List.mem_filter, Bool.and_eq_true, List.all_eq_true,
      Bool.not_eq_true']

theorem c10_witness :
    filter_args none [String.toList "https://a"] = [String.toList "https://a"] ∧
    read_app_config none (fun _ => Except.error []) = Except.ok none ∧
    ((String.toList " \t").all isRustWhitespace = true) ∧
    read_app_config (some (String.toList " \t")) (fun _ => Except.error []) =
      Except.ok none ∧
    (filter_args (some ⟨[], []⟩) [String.toList "u"]).Sublist
      [String.toList "u"] ∧
    (String.toList "u" ∈ filter_args (some ⟨[], []⟩) [String.toList "u"] ↔
      String.toList "u" ∈ [String.toList "u"] ∧
        (∀ g ∈ (AppConfig.mk [] []).ignored_urls,
          g.is_match (String.toList "u") = false) ∧
        (∀ r ∈ (AppConfig.mk [] []).ignored_urls_regex,
          r (String.toList "u") = false)) :=
  ⟨c10_filter_args.1 _, c10_filter_args.2.1 _, by decide,
   c10_filter_args.2.2.1 _ _ (by decide), c10_filter_args.2.2.2.1 _ _,
   c10_filter_args.2.2.2.2 _ _ _⟩
